import Mathlib

/-!
Verification of the ExternData C sources (`ED_MATFile.c`, `ED_JSONFile.c`).

The matrix buffers of the C code are modelled as functions `ℕ → α` (the C
`double*` indexed by `size_t`); machine `size_t` arithmetic is `ℕ` except at
the single place it matters, the loop bound `nRow*nCol - 1`, which wraps
around at `2^64` when `nRow*nCol = 0` (`sizeSub1`).  The C division and
modulus `i / nCol`, `i % nCol` are undefined when `nCol = 0`; this fault is
modelled by `Option`: `none` means the C program has undefined behaviour.
-/

namespace ExternData

/-- `size_t` subtraction of `1`: `(n - 1)` computed in 64-bit unsigned
arithmetic (for `n < 2^64`).  For `n = 0` this wraps to `2^64 - 1`, exactly as
the loop bound `nRow*nCol - 1` of `transpose` does in C. -/
def sizeSub1 (n : ℕ) : ℕ := (n + 2 ^ 64 - 1) % 2 ^ 64

/-- The index map of the cycle-following transposition,
`x ↦ nRow*(x % nCol) + x/nCol` (the "predecessor of x in the cycle",
`ED_MATFile.c:78`), as a total mathematical function. -/
def predT (nRow nCol x : ℕ) : ℕ := nRow * (x % nCol) + x / nCol

/-- The C expression `nRow*(x % nCol) + x/nCol`: division by zero (i.e.
`nCol = 0`) is undefined behaviour, modelled as `none`. -/
def pred (nRow nCol x : ℕ) : Option ℕ :=
  if nCol = 0 then none else some (predT nRow nCol x)

/-- The first inner loop of `transpose` (`ED_MATFile.c:84-86`):
`while (x > i) x = nRow*(x % nCol) + x/nCol;`, which checks whether the cycle
through `i` was already visited.  `fuel` bounds the number of iterations;
exhausting it yields `none` (the modelled loop did not terminate within
`fuel` steps, which is proved impossible in the uses below). -/
def cycleScan (nRow nCol i : ℕ) : ℕ → ℕ → Option ℕ
  | 0, _ => none
  | fuel + 1, x =>
    if i < x then (pred nRow nCol x).bind (cycleScan nRow nCol i fuel) else some x

/-- The second inner loop of `transpose` (`ED_MATFile.c:94-98`):
`while (x != i) { table[s] = table[x]; s = x; x = pred(x); }`.
Returns the final table together with the final value of `s`. -/
def cycleRotate {α : Type} (nRow nCol i : ℕ) :
    ℕ → (ℕ → α) → ℕ → ℕ → Option ((ℕ → α) × ℕ)
  | 0, _, _, _ => none
  | fuel + 1, table, s, x =>
    if x ≠ i then
      (pred nRow nCol x).bind fun x2 =>
        cycleRotate nRow nCol i fuel (Function.update table s (table x)) x x2
    else some (table, s)

/-- One iteration of the outer `for` loop of `transpose`
(`ED_MATFile.c:77-101`) at index `i`: compute the predecessor `x` of `i`,
skip if `x ≤ i`, otherwise scan the cycle and skip if the scan stops below
`i`, otherwise rotate the cycle by one position (the final
`table[s] = tmp` with `tmp = table[i]` is the last `Function.update`). -/
def transposeStep {α : Type} (nRow nCol : ℕ) (table : ℕ → α) (i : ℕ) :
    Option (ℕ → α) :=
  (pred nRow nCol i).bind fun x =>
    if x ≤ i then some table
    else
      (cycleScan nRow nCol i (nRow * nCol) x).bind fun x2 =>
        if x2 < i then some table
        else
          (cycleRotate nRow nCol i (nRow * nCol) table i x).map fun ts =>
            Function.update ts.1 ts.2 (table i)

/-- The outer `for` loop of `transpose`: `fuel` remaining iterations,
starting at index `i`. -/
def outerLoop {α : Type} (nRow nCol : ℕ) : ℕ → ℕ → (ℕ → α) → Option (ℕ → α)
  | 0, _, table => some table
  | fuel + 1, i, table =>
    (transposeStep nRow nCol table i).bind (outerLoop nRow nCol fuel (i + 1))

/-- `static void transpose(double* table, size_t nRow, size_t nCol)`
(`ED_MATFile.c:68-102`): in-place cycle-following transposition.  The loop
runs `i = 1, ..., (nRow*nCol - 1) - 1` where the bound `nRow*nCol - 1` is
computed in `size_t` arithmetic (`sizeSub1`).  `none` models undefined
behaviour (division by zero when `nCol = 0`). -/
def transpose {α : Type} (table : ℕ → α) (nRow nCol : ℕ) : Option (ℕ → α) :=
  outerLoop nRow nCol (sizeSub1 (nRow * nCol) - 1) 1 table

/-- The forward orbit of the index `i` under the predecessor map, as a
finite set (every cycle of the permutation has length at most `nRow*nCol`). -/
def orbit (nRow nCol i : ℕ) : Finset ℕ :=
  (Finset.range (nRow * nCol)).image fun k => (predT nRow nCol)^[k] i

/-- The least index on the cycle through `i` (the cycle representative at
which `transpose` performs the rotation). -/
def minOrb (nRow nCol i : ℕ) : ℕ :=
  (insert i (orbit nRow nCol i)).min' (Finset.insert_nonempty _ _)

/-- The table during the cycle rotation after `m` assignments: positions
`i, pred i, ..., pred^[m-1] i` already hold their final values. -/
def cycTab {α : Type} (nRow nCol i m : ℕ) (t : ℕ → α) : ℕ → α :=
  fun j =>
    if j ∈ (Finset.range m).image (fun l => (predT nRow nCol)^[l] i) then
      t (predT nRow nCol j)
    else t j

/-!  JSON (`ED_JSONFile.c`).  The bsjson parser and its node tree are an
external library (not part of the repository sources under verification), so
the tree and its two accessors are modelled from the spec. -/

/-- Modelled from the spec: the node tree built by the external bsjson
parser.  An object node carries its name, its child object nodes and its
name–value pairs, whose values are the textual tokens later coerced by the
callers. -/
inductive JsonNode : Type where
  | obj (name : String) (children : List JsonNode) (pairs : List (String × String))

/-- The name of a node. -/
def JsonNode.nodeName : JsonNode → String
  | .obj n _ _ => n

/-- Modelled from the spec: `JsonNode_findChild(node, name, JSON_OBJ)` of the
external bsjson library returns the first child object node with the given
name, or `NULL`. -/
def JsonNode_findChild (node : JsonNode) (name : String) : Option JsonNode :=
  match node with
  | .obj _ children _ => children.find? fun c => c.nodeName == name

/-- Modelled from the spec: `JsonNode_getPairValue(node, key)` of the
external bsjson library returns the textual value of the pair named `key`
in `node`, or `NULL` when no such pair exists. -/
def JsonNode_getPairValue (node : JsonNode) (key : String) : Option String :=
  match node with
  | .obj _ _ pairs => (pairs.find? fun p => p.1 == key).map Prod.snd

/-- Splitting on `'.'`: accumulates the current segment (reversed) and cuts
at each separator. -/
def splitSep : List Char → List Char → List (List Char)
  | [], cur => [cur.reverse]
  | c :: cs, cur =>
    if c = '.' then cur.reverse :: splitSep cs [] else splitSep cs (c :: cur)

/-- The `strtok_r(buf, ".", ...)` tokenization used by `findValue`
(`ED_JSONFile.c:121-131`): split on `'.'` and drop empty segments (strtok
never yields empty tokens). -/
def tokenize (s : String) : List String :=
  ((splitSep s.data []).filter fun seg => !seg.isEmpty).map fun seg =>
    String.mk seg

/-- The token-consuming `while` loop of `findValue`
(`ED_JSONFile.c:122-133`): descend into child objects while possible; on the
first segment with no matching child object, record it as the candidate
`key`, consume it, and break.  Returns the reached node, the candidate key
(if any) and the unconsumed segments after the key. -/
def findLoop (root : JsonNode) : List String → JsonNode × Option String × List String
  | [] => (root, none, [])
  | tok :: rest =>
    match JsonNode_findChild root tok with
    | some iter => findLoop iter rest
    | none => (root, some tok, rest)

/-- `static char* findValue(JsonNodeRef* root, const char* varName, const
char* fileName)` (`ED_JSONFile.c:114-155`).  The result models the pair
(`*root` after the call, returned token): the lookup succeeds only when a
key was identified and no unconsumed segment remains after it (the C
condition `NULL != key && NULL != *root && NULL == token`; `*root` is never
`NULL` during the scan since it starts at the parsed root and is only
replaced by non-`NULL` children).  Every failure path sets `*root` to
`NULL` and returns `NULL`. -/
def findValue (root : JsonNode) (varName : String) :
    Option JsonNode × Option String :=
  match findLoop root (tokenize varName) with
  | (reached, some key, rest) =>
    if rest.isEmpty then
      match JsonNode_getPairValue reached key with
      | some value => (some reached, some value)
      | none => (none, none)
    else (none, none)
  | (_, none, _) => (none, none)

/-- Digit list to number. -/
def digitsVal (cs : List Char) : ℕ :=
  cs.foldl (fun a c => 10 * a + (c.toNat - '0'.toNat)) 0

/-- Modelled from the spec: `ED_strtod` of `ED_locale.c` (not among the
sources under verification) parses the whole token as a locale-aware
floating-point number and reports failure when the token is syntactically
not a number.  Modelled on plain decimal numbers with optional sign and
fraction; the C function returns nonzero on failure, modelled as `none`. -/
def ED_strtod (s : String) : Option ℚ :=
  let cs := s.data
  let sign : Bool × List Char :=
    match cs with
    | '-' :: r => (true, r)
    | '+' :: r => (false, r)
    | r => (false, r)
  let ds := sign.2.takeWhile Char.isDigit
  let rest := sign.2.dropWhile Char.isDigit
  if ds.isEmpty then none
  else
    let ip : ℚ := (digitsVal ds : ℚ)
    match rest with
    | [] => some (if sign.1 then -ip else ip)
    | '.' :: fs =>
      let fd := fs.takeWhile Char.isDigit
      let rest2 := fs.dropWhile Char.isDigit
      if rest2.isEmpty then
        let v : ℚ := ip + (digitsVal fd : ℚ) / ((10 : ℚ) ^ fd.length)
        some (if sign.1 then -v else v)
      else none
    | _ => none

/-- Modelled from the spec: `ED_strtol` of `ED_locale.c` parses the whole
token as a locale-aware integer, failing when the token is syntactically
not an integer. -/
def ED_strtol (s : String) : Option ℤ :=
  let cs := s.data
  let sign : Bool × List Char :=
    match cs with
    | '-' :: r => (true, r)
    | '+' :: r => (false, r)
    | r => (false, r)
  let ds := sign.2.takeWhile Char.isDigit
  let rest := sign.2.dropWhile Char.isDigit
  if ds.isEmpty then none
  else if rest.isEmpty then
    some (if sign.1 then -(digitsVal ds : ℤ) else (digitsVal ds : ℤ))
  else none

/-- The C cast `(int)ret` from `long` applied by `ED_getIntFromJSON`
(`ED_JSONFile.c:230`), as 32-bit wraparound. -/
def intCast32 (z : ℤ) : ℤ := (z + 2 ^ 31) % 2 ^ 32 - 2 ^ 31

/-- Outcome of a scalar getter: a returned value together with the final
`*exist` flag, or a fatal `ModelicaFormatError`. -/
inductive GetResult (α : Type) : Type where
  | ok (value : α) (exist : Bool)
  | fatal (msg : String)
  deriving DecidableEq

/-- The `JSONFile` handle after a successful parse (`ED_createJSON`):
`root` is the non-`NULL` parsed tree.  The file name and locale fields play
no role in the modelled behaviour. -/
structure JSONFile : Type where
  root : JsonNode

/-- `double ED_getDoubleFromJSON(void* _json, const char* varName, int*
exist)` (`ED_JSONFile.c:157-181`).  `*exist` starts at `1`; a found token
that does not parse is a fatal error; a failed lookup returns `0` with
`*exist = 0` (with or without an advisory message depending on whether the
reached container survived). -/
def ED_getDoubleFromJSON (json : Option JSONFile) (varName : String) :
    GetResult ℚ :=
  match json with
  | none => .ok 0 true
  | some j =>
    match findValue j.root varName with
    | (_, some token) =>
      match ED_strtod token with
      | some v => .ok v true
      | none => .fatal ("Cannot read double value \"" ++ token ++ "\"")
    | (some _, none) => .ok 0 false
    | (none, none) => .ok 0 false

/-- `const char* ED_getStringFromJSON` (`ED_JSONFile.c:183-205`): a found
token is copied out; a failed lookup returns the empty string with
`*exist = 0`. -/
def ED_getStringFromJSON (json : Option JSONFile) (varName : String) :
    GetResult String :=
  match json with
  | none => .ok "" true
  | some j =>
    match findValue j.root varName with
    | (_, some token) => .ok token true
    | (some _, none) => .ok "" false
    | (none, none) => .ok "" false

/-- `int ED_getIntFromJSON` (`ED_JSONFile.c:207-231`): like the double
getter with `ED_strtol`, and the `long` result cast to `int`. -/
def ED_getIntFromJSON (json : Option JSONFile) (varName : String) :
    GetResult ℤ :=
  match json with
  | none => .ok 0 true
  | some j =>
    match findValue j.root varName with
    | (_, some token) =>
      match ED_strtol token with
      | some v => .ok (intCast32 v) true
      | none => .fatal ("Cannot read int value \"" ++ token ++ "\"")
    | (some _, none) => .ok 0 false
    | (none, none) => .ok 0 false

/-!  MAT adapters (`ED_MATFile.c`).  The matio library (`Mat_Open`,
`Mat_VarReadInfo`, `Mat_VarReadData`, `Mat_VarCreate`, `Mat_VarWrite`) is an
external collaborator, so its observable results are modelled from the spec
as explicit data. -/

/-- The matio class code `MAT_C_DOUBLE` (double-precision class). -/
def MAT_C_DOUBLE : ℕ := 6

/-- Modelled from the spec: the information and data the external matio
library reports for a stored variable: rank, class, complexity flag, the
two dimensions, the column-major data, and whether `Mat_VarReadData`
fails. -/
structure MatVar : Type where
  rank : ℕ
  classType : ℕ
  isComplex : Bool
  dims0 : ℕ
  dims1 : ℕ
  data : ℕ → ℚ
  readError : Bool

/-- Modelled from the spec: an openable MAT file is a map from variable
names to stored variables (`Mat_VarReadInfo` result). -/
structure MatFile : Type where
  vars : String → Option MatVar

/-- The `MATFile` handle of `ED_createMAT`: `opened` is what `Mat_Open` on
the stored file name yields (`none`: the file cannot be opened). -/
structure MATHandle : Type where
  opened : Option MatFile

/-- Outcome of the 2D read: a normal return with the final caller buffer, a
fatal `ModelicaFormatError` with the caller buffer at the moment of the
error, or undefined behaviour (division by zero inside `transpose`). -/
inductive MatReadOutcome (α : Type) : Type where
  | ok (a : ℕ → α)
  | fatal (msg : String) (a : ℕ → α)
  | ub

/-- `void ED_getDoubleArray2DFromMAT(void* _mat, const char* varName,
double* a, size_t m, size_t n)` (`ED_MATFile.c:150-251`): open, look up the
variable, validate rank 2, double class, non-complex, then the row and
column counts against the caller dimensions; only then read the
column-major data into `a` and transpose it in place.  A `NULL` handle
skips the body.  On a read error the buffer was already filled by
`Mat_VarReadData` (the external library's failure contents are modelled as
fully written). -/
def ED_getDoubleArray2DFromMAT (mat : Option MATHandle) (varName : String)
    (a : ℕ → ℚ) (m n : ℕ) : MatReadOutcome ℚ :=
  match mat with
  | none => .ok a
  | some h =>
    match h.opened with
    | none => .fatal "Not possible to open file" a
    | some matfp =>
      match matfp.vars varName with
      | none => .fatal "Variable not found on file" a
      | some matvar =>
        if matvar.rank ≠ 2 then
          .fatal "Array has not the required rank 2" a
        else if matvar.classType ≠ MAT_C_DOUBLE then
          .fatal "2D array has not the required double precision class" a
        else if matvar.isComplex then
          .fatal "2D array must not be complex" a
        else if m ≠ matvar.dims0 then
          .fatal "Cannot read rows of matrix" a
        else if n ≠ matvar.dims1 then
          .fatal "Cannot read columns of matrix" a
        else
          let filled : ℕ → ℚ := fun j =>
            if j < matvar.dims0 * matvar.dims1 then matvar.data j else a j
          if matvar.readError then
            .fatal "Error when reading numeric data of matrix" filled
          else
            match transpose filled matvar.dims0 matvar.dims1 with
            | some b => .ok b
            | none => .ub

/-- Outcome of the 2D write: a normal return with the C `status`, the final
caller buffer and the variable handed to `Mat_VarWrite` (name, dims and
transposed data), or a fatal error, or undefined behaviour. -/
inductive WriteOutcome (α : Type) : Type where
  | ret (status : ℕ) (a : ℕ → α) (written : Option (String × (ℕ × ℕ) × (ℕ → α)))
  | fatal (msg : String) (a : ℕ → α)
  | ub

/-- The caller's buffer at exit, when the exit is defined. -/
def WriteOutcome.callerBuf {α : Type} : WriteOutcome α → Option (ℕ → α)
  | .ret _ a _ => some a
  | .fatal _ a => some a
  | .ub => none

/-- `int ED_writeDoubleArray2DToMAT(void* _mat, const char* varName,
double* a, size_t m, size_t n, int append)` (`ED_MATFile.c:253-303`): a
`NULL` handle returns status 0; `openOk` models the success of
`Mat_CreateVer`/`Mat_Open` (selected by `append`), `writeOk` that of
`Mat_VarWrite`.  The `m*n` input doubles are copied (`memcpy`) into a fresh
buffer `aT` and `transpose(aT, n, m)` is applied to the copy; the caller's
array `a` is never written through.  The `Mat_VarDelete` performed when
`append != 0` only affects the file. -/
def ED_writeDoubleArray2DToMAT {α : Type} (mat : Option MATHandle)
    (openOk writeOk : Bool) (varName : String) (a : ℕ → α) (m n : ℕ)
    (append : ℕ) : WriteOutcome α :=
  match mat with
  | none => .ret 0 a none
  | some _ =>
    if openOk = false then .fatal "Not possible to open file" a
    else
      match transpose (fun j => a j) n m with
      | none => .ub
      | some aT2 =>
        if writeOk = false then .fatal "Cannot write variable" a
        else .ret 1 a (some (varName, (m, n), aT2))

/-- The document `{"a":{"b":{"c":42}}}` as a bsjson tree. -/
def doc1 : JsonNode :=
  .obj "" [.obj "a" [.obj "b" [] [("c", "42")]] []] []

/-- The document `{"a":"hello"}` as a bsjson tree. -/
def doc2 : JsonNode := .obj "" [] [("a", "hello")]

/-- A sample stored variable: a real 2×3 double matrix. -/
def sampleVar : MatVar := ⟨2, MAT_C_DOUBLE, false, 2, 3, fun _ => 0, false⟩

/-- A sample MAT file containing only the variable `A`. -/
def sampleFile : MatFile := ⟨fun s => if s = "A" then some sampleVar else none⟩

/-- A sample handle whose file opens successfully. -/
def sampleHandle : MATHandle := ⟨some sampleFile⟩

end ExternData

namespace ExternData

theorem sizeSub1_eq {n : ℕ} (h0 : 1 ≤ n) (h1 : n < 2 ^ 64) :
    sizeSub1 n = n - 1 := by
  have h : (2 : ℕ) ^ 64 = 18446744073709551616 := by norm_num
  unfold sizeSub1
  omega

theorem sizeSub1_zero : sizeSub1 0 = 2 ^ 64 - 1 := by
  have h : (2 : ℕ) ^ 64 = 18446744073709551616 := by norm_num
  unfold sizeSub1
  omega

theorem pred_eq_some {nRow nCol x : ℕ} (h : nCol ≠ 0) :
    pred nRow nCol x = some (predT nRow nCol x) := by
  simp [pred, h]

theorem predT_lt {nRow nCol x : ℕ} (hx : x < nRow * nCol) :
    predT nRow nCol x < nRow * nCol := by
  have hC : 0 < nCol := by
    rcases Nat.eq_zero_or_pos nCol with h | h
    · subst h; simp at hx
    · exact h
  have h1 : x % nCol < nCol := Nat.mod_lt _ hC
  have h2 : x / nCol < nRow := (Nat.div_lt_iff_lt_mul hC).mpr hx
  have h3 : nRow * (x % nCol) ≤ nRow * (nCol - 1) :=
    Nat.mul_le_mul_left _ (by omega)
  have h4 : nRow * (nCol - 1) + nRow = nRow * nCol := by
    obtain ⟨c, rfl⟩ : ∃ c, nCol = c + 1 := ⟨nCol - 1, by omega⟩
    simp [Nat.mul_succ]
  unfold predT
  omega

theorem predT_predT {nRow nCol x : ℕ} (hx : x < nRow * nCol) :
    predT nCol nRow (predT nRow nCol x) = x := by
  have hC : 0 < nCol := by
    rcases Nat.eq_zero_or_pos nCol with h | h
    · subst h; simp at hx
    · exact h
  have hR : 0 < nRow := by
    rcases Nat.eq_zero_or_pos nRow with h | h
    · subst h; simp at hx
    · exact h
  have hb : x / nCol < nRow := (Nat.div_lt_iff_lt_mul hC).mpr hx
  show nCol * ((nRow * (x % nCol) + x / nCol) % nRow)
      + (nRow * (x % nCol) + x / nCol) / nRow = x
  rw [Nat.mul_add_mod, Nat.mul_add_div hR, Nat.mod_eq_of_lt hb,
    Nat.div_eq_of_lt hb, Nat.add_zero, Nat.div_add_mod]

theorem predT_inj {nRow nCol x y : ℕ} (hx : x < nRow * nCol)
    (hy : y < nRow * nCol) (h : predT nRow nCol x = predT nRow nCol y) :
    x = y := by
  have := predT_predT hx
  have := predT_predT hy
  rw [← predT_predT hx, h, predT_predT hy]

theorem predT_zero (nRow nCol : ℕ) : predT nRow nCol 0 = 0 := by
  simp [predT]

theorem predT_last {nRow nCol : ℕ} (hR : 1 ≤ nRow) (hC : 1 ≤ nCol) :
    predT nRow nCol (nRow * nCol - 1) = nRow * nCol - 1 := by
  obtain ⟨r, rfl⟩ : ∃ r, nRow = r + 1 := ⟨nRow - 1, by omega⟩
  obtain ⟨c, rfl⟩ : ∃ c, nCol = c + 1 := ⟨nCol - 1, by omega⟩
  have h1 : (r + 1) * (c + 1) = (c + 1) * r + c + 1 := by ring
  have h2 : (r + 1) * (c + 1) - 1 = (c + 1) * r + c := by omega
  unfold predT
  rw [h2]
  have h3 : ((c + 1) * r + c) % (c + 1) = c := by
    rw [Nat.mul_add_mod, Nat.mod_eq_of_lt (by omega)]
  have h4 : ((c + 1) * r + c) / (c + 1) = r := by
    rw [Nat.mul_add_div (by omega), Nat.div_eq_of_lt (by omega)]
    omega
  rw [h3, h4]
  have h5 : (r + 1) * c + r = (c + 1) * r + c := by ring
  omega

theorem iterate_predT_lt {nRow nCol i : ℕ} (hi : i < nRow * nCol) :
    ∀ k, (predT nRow nCol)^[k] i < nRow * nCol := by
  intro k
  induction k with
  | zero => simpa using hi
  | succ n ih =>
    rw [Function.iterate_succ_apply']
    exact predT_lt ih

theorem iterate_predT_cancel {nRow nCol : ℕ} :
    ∀ (a : ℕ) (x y : ℕ), x < nRow * nCol → y < nRow * nCol →
      (predT nRow nCol)^[a] x = (predT nRow nCol)^[a] y → x = y := by
  intro a
  induction a with
  | zero => intro x y _ _ h; simpa using h
  | succ n ih =>
    intro x y hx hy h
    rw [Function.iterate_succ_apply, Function.iterate_succ_apply] at h
    have := ih (predT nRow nCol x) (predT nRow nCol y) (predT_lt hx)
      (predT_lt hy) h
    exact predT_inj hx hy this

theorem exists_period {nRow nCol i : ℕ} (hi : i < nRow * nCol) :
    ∃ c, 1 ≤ c ∧ c ≤ nRow * nCol ∧ (predT nRow nCol)^[c] i = i := by
  set N := nRow * nCol with hN
  have hmaps : ∀ a ∈ Finset.range (N + 1),
      (predT nRow nCol)^[a] i ∈ Finset.range N := by
    intro a _
    rw [Finset.mem_range]
    exact iterate_predT_lt hi a
  have hcard : (Finset.range N).card < (Finset.range (N + 1)).card := by
    simp
  obtain ⟨a, ha, b, hb, hab, heq⟩ :=
    Finset.exists_ne_map_eq_of_card_lt_of_maps_to hcard hmaps
  rw [Finset.mem_range] at ha hb
  rcases Nat.lt_or_ge a b with hlt | hge
  · refine ⟨b - a, by omega, by omega, ?_⟩
    have : (predT nRow nCol)^[a] ((predT nRow nCol)^[b - a] i)
        = (predT nRow nCol)^[a] i := by
      rw [← Function.iterate_add_apply]
      have : a + (b - a) = b := by omega
      rw [this, heq]
    exact iterate_predT_cancel a _ i (iterate_predT_lt hi _) hi this
  · have hlt : b < a := by omega
    refine ⟨a - b, by omega, by omega, ?_⟩
    have : (predT nRow nCol)^[b] ((predT nRow nCol)^[a - b] i)
        = (predT nRow nCol)^[b] i := by
      rw [← Function.iterate_add_apply]
      have : b + (a - b) = a := by omega
      rw [this, heq]
    exact iterate_predT_cancel b _ i (iterate_predT_lt hi _) hi this

theorem mem_orbit_self {nRow nCol i : ℕ} (hi : i < nRow * nCol) :
    i ∈ orbit nRow nCol i := by
  rw [orbit, Finset.mem_image]
  exact ⟨0, Finset.mem_range.mpr (by omega), rfl⟩

theorem orbit_lt {nRow nCol i j : ℕ} (hi : i < nRow * nCol)
    (hj : j ∈ orbit nRow nCol i) : j < nRow * nCol := by
  rw [orbit, Finset.mem_image] at hj
  obtain ⟨k, _, rfl⟩ := hj
  exact iterate_predT_lt hi k

theorem iterate_mem_orbit {nRow nCol i : ℕ} (hi : i < nRow * nCol) :
    ∀ n, (predT nRow nCol)^[n] i ∈ orbit nRow nCol i := by
  intro n
  obtain ⟨c, hc1, hc2, hc3⟩ := exists_period hi
  have hper : Function.IsPeriodicPt (predT nRow nCol) c i := hc3
  rw [orbit, Finset.mem_image]
  refine ⟨n % c, Finset.mem_range.mpr ?_, hper.iterate_mod_apply n⟩
  have := Nat.mod_lt n (show 0 < c by omega)
  omega

theorem mem_orbit_symm {nRow nCol i j : ℕ} (hi : i < nRow * nCol)
    (hj : j ∈ orbit nRow nCol i) : i ∈ orbit nRow nCol j := by
  have hjlt : j < nRow * nCol := orbit_lt hi hj
  rw [orbit, Finset.mem_image] at hj
  obtain ⟨k, hk, rfl⟩ := hj
  rw [Finset.mem_range] at hk
  obtain ⟨c, hc1, hc2, hc3⟩ := exists_period hi
  have hper : Function.IsPeriodicPt (predT nRow nCol) c i := hc3
  have hbig : Function.IsPeriodicPt (predT nRow nCol) (c * (nRow * nCol)) i :=
    hper.mul_const _
  have hk2 : k ≤ c * (nRow * nCol) := by
    calc k ≤ nRow * nCol := by omega
    _ ≤ c * (nRow * nCol) := Nat.le_mul_of_pos_left _ (by omega)
  have : (predT nRow nCol)^[c * (nRow * nCol) - k] ((predT nRow nCol)^[k] i)
      = i := by
    rw [← Function.iterate_add_apply]
    have he : c * (nRow * nCol) - k + k = c * (nRow * nCol) := by omega
    rw [he]
    exact hbig
  have hmem := iterate_mem_orbit hjlt (c * (nRow * nCol) - k)
  rw [this] at hmem
  exact hmem

theorem orbit_eq_of_mem {nRow nCol i j : ℕ} (hi : i < nRow * nCol)
    (hj : j ∈ orbit nRow nCol i) : orbit nRow nCol j = orbit nRow nCol i := by
  have hjlt : j < nRow * nCol := orbit_lt hi hj
  have hij : i ∈ orbit nRow nCol j := mem_orbit_symm hi hj
  apply Finset.Subset.antisymm
  · intro x hx
    rw [orbit, Finset.mem_image] at hx hj
    obtain ⟨l, _, rfl⟩ := hx
    obtain ⟨k, _, rfl⟩ := hj
    rw [← Function.iterate_add_apply]
    exact iterate_mem_orbit hi _
  · intro x hx
    rw [orbit, Finset.mem_image] at hx hij
    obtain ⟨l, _, rfl⟩ := hx
    obtain ⟨k, _, rfl⟩ := hij
    rw [← Function.iterate_add_apply]
    exact iterate_mem_orbit hjlt _

theorem minOrb_le {nRow nCol i j : ℕ} (hj : j ∈ orbit nRow nCol i) :
    minOrb nRow nCol i ≤ j :=
  Finset.min'_le _ _ (Finset.mem_insert_of_mem hj)

theorem minOrb_le_self (nRow nCol i : ℕ) : minOrb nRow nCol i ≤ i :=
  Finset.min'_le _ _ (Finset.mem_insert_self _ _)

theorem minOrb_mem {nRow nCol i : ℕ} (hi : i < nRow * nCol) :
    minOrb nRow nCol i ∈ orbit nRow nCol i := by
  have h := Finset.min'_mem (insert i (orbit nRow nCol i))
    (Finset.insert_nonempty _ _)
  rcases Finset.mem_insert.mp h with h1 | h1
  · show (insert i (orbit nRow nCol i)).min' (Finset.insert_nonempty _ _)
      ∈ orbit nRow nCol i
    rw [h1]
    exact mem_orbit_self hi
  · exact h1

theorem minOrb_congr {nRow nCol i j : ℕ} (hi : i < nRow * nCol)
    (hj : j ∈ orbit nRow nCol i) : minOrb nRow nCol j = minOrb nRow nCol i := by
  have hjlt : j < nRow * nCol := orbit_lt hi hj
  have he : orbit nRow nCol j = orbit nRow nCol i := orbit_eq_of_mem hi hj
  apply Nat.le_antisymm
  · exact minOrb_le (by rw [he]; exact minOrb_mem hi)
  · exact minOrb_le (by rw [← he]; exact minOrb_mem hjlt)

theorem orbit_fixed {nRow nCol i : ℕ} (hi : i < nRow * nCol)
    (h : predT nRow nCol i = i) : orbit nRow nCol i = {i} := by
  have hiter : ∀ k, (predT nRow nCol)^[k] i = i := by
    intro k
    induction k with
    | zero => rfl
    | succ n ih => rw [Function.iterate_succ_apply', ih, h]
  apply Finset.Subset.antisymm
  · intro x hx
    rw [orbit, Finset.mem_image] at hx
    obtain ⟨k, _, rfl⟩ := hx
    rw [hiter k]
    exact Finset.mem_singleton_self i
  · intro x hx
    rw [Finset.mem_singleton] at hx
    subst hx
    exact mem_orbit_self hi

theorem minOrb_fixed {nRow nCol i : ℕ} (hi : i < nRow * nCol)
    (h : predT nRow nCol i = i) : minOrb nRow nCol i = i := by
  have := minOrb_mem hi
  rw [orbit_fixed hi h, Finset.mem_singleton] at this
  exact this

theorem minOrb_eq_imp_mem {nRow nCol i j : ℕ} (hj : j < nRow * nCol)
    (h : minOrb nRow nCol j = i) : i ∈ orbit nRow nCol j := by
  rw [← h]
  exact minOrb_mem hj

theorem cycleScan_reaches {nRow nCol i : ℕ} (hC : nCol ≠ 0) (nstar : ℕ)
    (hns : (predT nRow nCol)^[nstar] i ≤ i)
    (hmin : ∀ m, 1 ≤ m → m < nstar → i < (predT nRow nCol)^[m] i) :
    ∀ fuel k, 1 ≤ k → k ≤ nstar → nstar - k < fuel →
      cycleScan nRow nCol i fuel ((predT nRow nCol)^[k] i)
        = some ((predT nRow nCol)^[nstar] i) := by
  intro fuel
  induction fuel with
  | zero => intro k _ _ hf; omega
  | succ f ih =>
    intro k hk1 hk2 hf
    by_cases hke : k = nstar
    · subst hke
      simp only [cycleScan]
      rw [if_neg (by omega : ¬ i < (predT nRow nCol)^[k] i)]
    · have hgt : i < (predT nRow nCol)^[k] i := hmin k hk1 (by omega)
      simp only [cycleScan]
      rw [if_pos hgt, pred_eq_some hC]
      show cycleScan nRow nCol i f (predT nRow nCol ((predT nRow nCol)^[k] i))
        = some ((predT nRow nCol)^[nstar] i)
      rw [← Function.iterate_succ_apply' (predT nRow nCol) k i]
      exact ih (k + 1) (by omega) (by omega) (by omega)

theorem cycleScan_spec {nRow nCol i : ℕ} (h1 : 1 ≤ i) (hi : i < nRow * nCol) :
    ∃ x, cycleScan nRow nCol i (nRow * nCol) (predT nRow nCol i) = some x
      ∧ x ≤ i
      ∧ (∃ k, 1 ≤ k ∧ k ≤ nRow * nCol ∧ x = (predT nRow nCol)^[k] i)
      ∧ (x < i → minOrb nRow nCol i < i)
      ∧ (x = i → minOrb nRow nCol i = i) := by
  have hC : nCol ≠ 0 := by
    rcases Nat.eq_zero_or_pos nCol with h | h
    · subst h; simp at hi
    · omega
  have hpi : (predT nRow nCol)^[1] i = predT nRow nCol i :=
    Function.iterate_one _ ▸ rfl
  by_cases hle : predT nRow nCol i ≤ i
  · obtain ⟨f, hf⟩ : ∃ f, nRow * nCol = f + 1 := ⟨nRow * nCol - 1, by omega⟩
    refine ⟨predT nRow nCol i, ?_, hle, ⟨1, by omega, by omega, by rw [hpi]⟩,
      ?_, ?_⟩
    · rw [hf]
      simp only [cycleScan]
      rw [if_neg (by omega : ¬ i < predT nRow nCol i)]
    · intro hlt
      have hmem : predT nRow nCol i ∈ orbit nRow nCol i := by
        rw [← hpi]; exact iterate_mem_orbit hi 1
      have := minOrb_le hmem
      omega
    · intro heq
      exact minOrb_fixed hi heq
  · have hgt : i < predT nRow nCol i := by omega
    obtain ⟨c, hc1, hc2, hc3⟩ := exists_period hi
    have hex : ∃ n, 1 ≤ n ∧ (predT nRow nCol)^[n] i ≤ i :=
      ⟨c, hc1, le_of_eq hc3⟩
    set nstar := Nat.find hex with hnstar
    obtain ⟨hns1, hns2⟩ := Nat.find_spec hex
    have hmin : ∀ m, 1 ≤ m → m < nstar → i < (predT nRow nCol)^[m] i := by
      intro m hm1 hm2
      have := Nat.find_min hex hm2
      push_neg at this
      exact this hm1
    have hnsc : nstar ≤ c := Nat.find_min' hex ⟨hc1, le_of_eq hc3⟩
    have hscan : cycleScan nRow nCol i (nRow * nCol) (predT nRow nCol i)
        = some ((predT nRow nCol)^[nstar] i) := by
      have := cycleScan_reaches hC nstar hns2 hmin (nRow * nCol) 1 le_rfl
        hns1 (by omega)
      rw [hpi] at this
      exact this
    refine ⟨(predT nRow nCol)^[nstar] i, hscan, hns2,
      ⟨nstar, hns1, by omega, rfl⟩, ?_, ?_⟩
    · intro hlt
      have := minOrb_le (iterate_mem_orbit hi nstar)
      omega
    · intro heq
      have hper : Function.IsPeriodicPt (predT nRow nCol) nstar i := heq
      apply Nat.le_antisymm (minOrb_le_self nRow nCol i)
      have hall : ∀ j ∈ orbit nRow nCol i, i ≤ j := by
        intro j hj
        rw [orbit, Finset.mem_image] at hj
        obtain ⟨k, _, rfl⟩ := hj
        rw [← hper.iterate_mod_apply k]
        rcases Nat.eq_zero_or_pos (k % nstar) with h0 | h0
        · rw [h0]; exact le_rfl
        · have hklt : k % nstar < nstar := Nat.mod_lt _ (by omega)
          exact le_of_lt (hmin _ (by omega) hklt)
      exact hall _ (minOrb_mem hi)

theorem cycTab_zero {α : Type} (nRow nCol i : ℕ) (t : ℕ → α) :
    cycTab nRow nCol i 0 t = t := by
  funext j
  simp [cycTab]

theorem iterate_ne_of_lt_minPeriod {nRow nCol i : ℕ} (hi : i < nRow * nCol)
    (c : ℕ) (hcmin : ∀ m, 1 ≤ m → m < c → (predT nRow nCol)^[m] i ≠ i) :
    ∀ a b, a < b → b < c →
      (predT nRow nCol)^[a] i ≠ (predT nRow nCol)^[b] i := by
  intro a b hab hbc heq
  have h2 : (predT nRow nCol)^[a] ((predT nRow nCol)^[b - a] i)
      = (predT nRow nCol)^[a] i := by
    rw [← Function.iterate_add_apply]
    have he : a + (b - a) = b := by omega
    rw [he, ← heq]
  have h3 := iterate_predT_cancel a _ i (iterate_predT_lt hi _) hi h2
  exact hcmin (b - a) (by omega) (by omega) h3

theorem cycTab_succ {α : Type} {nRow nCol i : ℕ} (c : ℕ) (t : ℕ → α) (m : ℕ)
    (hm : m + 1 < c)
    (hdist : ∀ a b, a < b → b < c →
      (predT nRow nCol)^[a] i ≠ (predT nRow nCol)^[b] i) :
    Function.update (cycTab nRow nCol i m t) ((predT nRow nCol)^[m] i)
        (cycTab nRow nCol i m t ((predT nRow nCol)^[m + 1] i))
      = cycTab nRow nCol i (m + 1) t := by
  have hnm : (predT nRow nCol)^[m + 1] i
      ∉ (Finset.range m).image fun l => (predT nRow nCol)^[l] i := by
    intro hmem
    rw [Finset.mem_image] at hmem
    obtain ⟨l, hl, heq⟩ := hmem
    rw [Finset.mem_range] at hl
    exact hdist l (m + 1) (by omega) hm heq
  have hval : cycTab nRow nCol i m t ((predT nRow nCol)^[m + 1] i)
      = t ((predT nRow nCol)^[m + 1] i) := by
    simp only [cycTab]
    rw [if_neg hnm]
  funext j
  by_cases hj : j = (predT nRow nCol)^[m] i
  · subst hj
    rw [Function.update_same, hval]
    have hmem : (predT nRow nCol)^[m] i
        ∈ (Finset.range (m + 1)).image fun l => (predT nRow nCol)^[l] i := by
      rw [Finset.mem_image]
      exact ⟨m, Finset.mem_range.mpr (by omega), rfl⟩
    simp only [cycTab]
    rw [if_pos hmem, ← Function.iterate_succ_apply' (predT nRow nCol) m i]
  · rw [Function.update_noteq hj]
    by_cases hmem : j ∈ (Finset.range m).image fun l => (predT nRow nCol)^[l] i
    · have hmem2 : j
          ∈ (Finset.range (m + 1)).image fun l => (predT nRow nCol)^[l] i := by
        rw [Finset.mem_image] at hmem ⊢
        obtain ⟨l, hl, rfl⟩ := hmem
        rw [Finset.mem_range] at hl
        exact ⟨l, Finset.mem_range.mpr (by omega), rfl⟩
      simp only [cycTab]
      rw [if_pos hmem, if_pos hmem2]
    · have hmem2 : j
          ∉ (Finset.range (m + 1)).image fun l => (predT nRow nCol)^[l] i := by
        intro hmem3
        rw [Finset.mem_image] at hmem3
        obtain ⟨l, hl, heq⟩ := hmem3
        rw [Finset.mem_range] at hl
        rcases Nat.lt_or_ge l m with h | h
        · exact hmem (Finset.mem_image.mpr ⟨l, Finset.mem_range.mpr h, heq⟩)
        · have hlm : l = m := by omega
          subst hlm
          exact hj heq.symm
      simp only [cycTab]
      rw [if_neg hmem, if_neg hmem2]

theorem cycleRotate_reaches {α : Type} {nRow nCol i : ℕ} (hC : nCol ≠ 0)
    (t : ℕ → α) (c : ℕ) (hc : (predT nRow nCol)^[c] i = i) (hc2 : 2 ≤ c)
    (hdist : ∀ a b, a < b → b < c →
      (predT nRow nCol)^[a] i ≠ (predT nRow nCol)^[b] i) :
    ∀ fuel m, m ≤ c - 1 → c - 1 - m < fuel →
      cycleRotate nRow nCol i fuel (cycTab nRow nCol i m t)
          ((predT nRow nCol)^[m] i) ((predT nRow nCol)^[m + 1] i)
        = some (cycTab nRow nCol i (c - 1) t, (predT nRow nCol)^[c - 1] i) := by
  intro fuel
  induction fuel with
  | zero => intro m _ hf; omega
  | succ f ih =>
    intro m hm hf
    by_cases hme : m = c - 1
    · subst hme
      have hx : (predT nRow nCol)^[c - 1 + 1] i = i := by
        have he : c - 1 + 1 = c := by omega
        rw [he, hc]
      simp only [cycleRotate]
      rw [if_neg (by rw [hx]; simp)]
    · have hmlt : m + 1 < c := by omega
      have hxne : (predT nRow nCol)^[m + 1] i ≠ i := by
        intro h
        exact hdist 0 (m + 1) (by omega) hmlt (by simp [h])
      simp only [cycleRotate]
      rw [if_pos hxne, pred_eq_some hC]
      show cycleRotate nRow nCol i f
          (Function.update (cycTab nRow nCol i m t) ((predT nRow nCol)^[m] i)
            (cycTab nRow nCol i m t ((predT nRow nCol)^[m + 1] i)))
          ((predT nRow nCol)^[m + 1] i)
          (predT nRow nCol ((predT nRow nCol)^[m + 1] i))
        = some (cycTab nRow nCol i (c - 1) t, (predT nRow nCol)^[c - 1] i)
      rw [cycTab_succ c t m hmlt hdist,
        ← Function.iterate_succ_apply' (predT nRow nCol) (m + 1) i]
      exact ih (m + 1) (by omega) (by omega)

theorem orbit_eq_range_period {nRow nCol i : ℕ} (hi : i < nRow * nCol) (c : ℕ)
    (hc : (predT nRow nCol)^[c] i = i) (hc1 : 1 ≤ c) :
    orbit nRow nCol i
      = (Finset.range c).image fun k => (predT nRow nCol)^[k] i := by
  apply Finset.Subset.antisymm
  · intro x hx
    rw [orbit, Finset.mem_image] at hx
    obtain ⟨k, _, rfl⟩ := hx
    have hper : Function.IsPeriodicPt (predT nRow nCol) c i := hc
    rw [Finset.mem_image]
    exact ⟨k % c, Finset.mem_range.mpr (Nat.mod_lt _ (by omega)),
      hper.iterate_mod_apply k⟩
  · intro x hx
    rw [Finset.mem_image] at hx
    obtain ⟨k, _, rfl⟩ := hx
    exact iterate_mem_orbit hi k

theorem rotationResult {α : Type} {nRow nCol i : ℕ} (hi : i < nRow * nCol)
    (t : ℕ → α) (c : ℕ) (hc : (predT nRow nCol)^[c] i = i) (hc2 : 2 ≤ c)
    (hdist : ∀ a b, a < b → b < c →
      (predT nRow nCol)^[a] i ≠ (predT nRow nCol)^[b] i) :
    Function.update (cycTab nRow nCol i (c - 1) t)
        ((predT nRow nCol)^[c - 1] i) (t i)
      = fun j =>
          if j ∈ orbit nRow nCol i then t (predT nRow nCol j) else t j := by
  have horb := orbit_eq_range_period hi c hc (by omega)
  funext j
  by_cases hj : j = (predT nRow nCol)^[c - 1] i
  · subst hj
    rw [Function.update_same]
    have hpj : predT nRow nCol ((predT nRow nCol)^[c - 1] i) = i := by
      rw [← Function.iterate_succ_apply' (predT nRow nCol) (c - 1) i]
      have he : (c - 1).succ = c := by omega
      rw [he, hc]
    have hmem : (predT nRow nCol)^[c - 1] i ∈ orbit nRow nCol i :=
      iterate_mem_orbit hi _
    rw [if_pos hmem, hpj]
  · rw [Function.update_noteq hj]
    by_cases hmem : j ∈ (Finset.range (c - 1)).image
        fun l => (predT nRow nCol)^[l] i
    · have hmem2 : j ∈ orbit nRow nCol i := by
        rw [horb]
        rw [Finset.mem_image] at hmem ⊢
        obtain ⟨l, hl, rfl⟩ := hmem
        rw [Finset.mem_range] at hl
        exact ⟨l, Finset.mem_range.mpr (by omega), rfl⟩
      simp only [cycTab]
      rw [if_pos hmem, if_pos hmem2]
    · have hmem2 : j ∉ orbit nRow nCol i := by
        rw [horb]
        intro hmem3
        rw [Finset.mem_image] at hmem3
        obtain ⟨l, hl, heq⟩ := hmem3
        rw [Finset.mem_range] at hl
        rcases Nat.lt_or_ge l (c - 1) with h | h
        · exact hmem (Finset.mem_image.mpr ⟨l, Finset.mem_range.mpr h, heq⟩)
        · have hlc : l = c - 1 := by omega
          subst hlc
          exact hj heq.symm
      simp only [cycTab]
      rw [if_neg hmem, if_neg hmem2]

theorem transposeStep_spec {α : Type} {nRow nCol : ℕ} (t : ℕ → α) (i : ℕ)
    (h1 : 1 ≤ i) (hi : i < nRow * nCol) :
    ∃ u, transposeStep nRow nCol t i = some u
      ∧ ∀ j, u j =
          if j ∈ orbit nRow nCol i ∧ minOrb nRow nCol i = i then
            t (predT nRow nCol j)
          else t j := by
  have hC : nCol ≠ 0 := by
    rcases Nat.eq_zero_or_pos nCol with h | h
    · subst h; simp at hi
    · omega
  have h0 : transposeStep nRow nCol t i =
      (if predT nRow nCol i ≤ i then some t
       else
        (cycleScan nRow nCol i (nRow * nCol) (predT nRow nCol i)).bind
          fun x2 =>
            if x2 < i then some t
            else
              (cycleRotate nRow nCol i (nRow * nCol) t i
                  (predT nRow nCol i)).map
                fun ts => Function.update ts.1 ts.2 (t i)) := by
    unfold transposeStep
    rw [pred_eq_some hC, Option.some_bind]
  by_cases hle : predT nRow nCol i ≤ i
  · refine ⟨t, by rw [h0, if_pos hle], ?_⟩
    rcases Nat.lt_or_ge (predT nRow nCol i) i with hplt | hpge
    · have hmem : predT nRow nCol i ∈ orbit nRow nCol i := by
        have := iterate_mem_orbit hi 1
        simpa using this
      have hmo := minOrb_le hmem
      intro j
      rw [if_neg]
      rintro ⟨_, hm⟩
      omega
    · have hfix : predT nRow nCol i = i := by omega
      have hm := minOrb_fixed hi hfix
      intro j
      by_cases hcond : j ∈ orbit nRow nCol i ∧ minOrb nRow nCol i = i
      · rw [if_pos hcond]
        obtain ⟨hj, _⟩ := hcond
        rw [orbit_fixed hi hfix, Finset.mem_singleton] at hj
        subst hj
        rw [hfix]
      · rw [if_neg hcond]
  · obtain ⟨x, hscan, hxle, ⟨k, hk1, hkN, hxk⟩, hlt_imp, heq_imp⟩ :=
      cycleScan_spec h1 hi
    by_cases hxlt : x < i
    · have hmo := hlt_imp hxlt
      refine ⟨t, ?_, ?_⟩
      · rw [h0, if_neg hle, hscan, Option.some_bind, if_pos hxlt]
      · intro j
        rw [if_neg]
        rintro ⟨_, hm⟩
        omega
    · have hxeq : x = i := by omega
      have hm := heq_imp hxeq
      have hex : ∃ n, 1 ≤ n ∧ (predT nRow nCol)^[n] i = i := by
        refine ⟨k, hk1, ?_⟩
        rw [← hxk, hxeq]
      set c := Nat.find hex with hcdef
      obtain ⟨hc1, hc⟩ := Nat.find_spec hex
      rw [← hcdef] at hc1 hc
      have hck : c ≤ k := Nat.find_min' hex ⟨hk1, by rw [← hxk, hxeq]⟩
      have hcmin : ∀ m, 1 ≤ m → m < c → (predT nRow nCol)^[m] i ≠ i := by
        intro m hm1 hm2 hmeq
        exact Nat.find_min hex hm2 ⟨hm1, hmeq⟩
      have hc2 : 2 ≤ c := by
        rcases Nat.lt_or_ge c 2 with h | h
        · have hceq : c = 1 := by omega
          rw [hceq] at hc
          simp at hc
          omega
        · exact h
      have hdist := iterate_ne_of_lt_minPeriod hi c hcmin
      have hrot := cycleRotate_reaches hC t c hc hc2 hdist (nRow * nCol) 0
        (by omega) (by omega)
      rw [cycTab_zero] at hrot
      have hz : (predT nRow nCol)^[0] i = i := rfl
      have ho : (predT nRow nCol)^[0 + 1] i = predT nRow nCol i := by
        simp
      rw [hz, ho] at hrot
      refine ⟨Function.update (cycTab nRow nCol i (c - 1) t)
          ((predT nRow nCol)^[c - 1] i) (t i), ?_, ?_⟩
      · rw [h0, if_neg hle, hscan, Option.some_bind, if_neg (by omega), hrot,
          Option.map_some']
      · have hru := rotationResult hi t c hc hc2 hdist
        intro j
        rw [hru]
        show (if j ∈ orbit nRow nCol i then t (predT nRow nCol j) else t j) = _
        by_cases hj : j ∈ orbit nRow nCol i
        · rw [if_pos hj, if_pos ⟨hj, hm⟩]
        · rw [if_neg hj, if_neg (by rintro ⟨hj2, _⟩; exact hj hj2)]

theorem outerLoop_inv {α : Type} {nRow nCol : ℕ} (t0 : ℕ → α) :
    ∀ fuel i t, 1 ≤ i → i + fuel + 1 ≤ nRow * nCol →
      (∀ j, j < nRow * nCol →
        t j = if minOrb nRow nCol j < i then t0 (predT nRow nCol j) else t0 j) →
      (∀ j, nRow * nCol ≤ j → t j = t0 j) →
      ∃ u, outerLoop nRow nCol fuel i t = some u
        ∧ (∀ j, j < nRow * nCol →
            u j = if minOrb nRow nCol j < i + fuel then
              t0 (predT nRow nCol j) else t0 j)
        ∧ (∀ j, nRow * nCol ≤ j → u j = t0 j) := by
  intro fuel
  induction fuel with
  | zero =>
    intro i t h1 hN hinv hout
    refine ⟨t, rfl, ?_, hout⟩
    simpa using hinv
  | succ f ih =>
    intro i t h1 hN hinv hout
    have hi : i < nRow * nCol := by omega
    obtain ⟨u1, hstep, hu1⟩ := transposeStep_spec t i h1 hi
    have hinv1 : ∀ j, j < nRow * nCol →
        u1 j = if minOrb nRow nCol j < i + 1 then
          t0 (predT nRow nCol j) else t0 j := by
      intro j hj
      rw [hu1 j]
      by_cases hcond : j ∈ orbit nRow nCol i ∧ minOrb nRow nCol i = i
      · obtain ⟨hjo, hmi⟩ := hcond
        rw [if_pos ⟨hjo, hmi⟩]
        have hmj : minOrb nRow nCol j = i := by
          rw [minOrb_congr hi hjo, hmi]
        rw [if_pos (by omega)]
        have hjlt : j < nRow * nCol := orbit_lt hi hjo
        have hpj : predT nRow nCol j < nRow * nCol := predT_lt hjlt
        have hmpj : minOrb nRow nCol (predT nRow nCol j) = i := by
          have hpjo : predT nRow nCol j ∈ orbit nRow nCol j := by
            have := iterate_mem_orbit hjlt 1
            simpa using this
          rw [minOrb_congr hjlt hpjo, hmj]
        rw [hinv _ hpj, if_neg (by omega)]
      · rw [if_neg hcond]
        have hmj : minOrb nRow nCol j ≠ i := by
          intro hmj
          have hio : i ∈ orbit nRow nCol j := minOrb_eq_imp_mem hj hmj
          have horb : orbit nRow nCol i = orbit nRow nCol j :=
            orbit_eq_of_mem hj hio
          have hjo : j ∈ orbit nRow nCol i := by
            rw [horb]
            exact mem_orbit_self hj
          have hmi : minOrb nRow nCol i = i := by
            rw [minOrb_congr hj hio, hmj]
          exact hcond ⟨hjo, hmi⟩
        rw [hinv _ hj]
        by_cases hlt : minOrb nRow nCol j < i
        · rw [if_pos hlt, if_pos (by omega)]
        · rw [if_neg hlt, if_neg (by omega)]
    have hout1 : ∀ j, nRow * nCol ≤ j → u1 j = t0 j := by
      intro j hj
      rw [hu1 j, if_neg, hout _ hj]
      rintro ⟨hjo, _⟩
      have := orbit_lt hi hjo
      omega
    obtain ⟨u, hloop, hu, huo⟩ := ih (i + 1) u1 (by omega) (by omega)
      hinv1 hout1
    refine ⟨u, ?_, ?_, huo⟩
    · simp only [outerLoop]
      rw [hstep, Option.some_bind]
      exact hloop
    · intro j hj
      rw [hu j hj]
      have he : i + 1 + f = i + (f + 1) := by omega
      rw [he]

theorem transpose_spec {α : Type} (t : ℕ → α) (nRow nCol : ℕ)
    (hR : 1 ≤ nRow) (hC : 1 ≤ nCol) (hsz : nRow * nCol < 2 ^ 64) :
    transpose t nRow nCol
      = some (fun j =>
          if j < nRow * nCol then t (predT nRow nCol j) else t j) := by
  have hN1 : 0 < nRow * nCol := Nat.mul_pos hR hC
  rcases Nat.lt_or_ge (nRow * nCol) 2 with hN | hN
  · have hNeq : nRow * nCol = 1 := by omega
    have hcount : sizeSub1 (nRow * nCol) - 1 = 0 := by
      rw [hNeq]
      norm_num [sizeSub1]
    rw [transpose, hcount]
    simp only [outerLoop]
    refine congrArg some (funext fun j => ?_)
    rcases Nat.lt_or_ge j (nRow * nCol) with hj | hj
    · have hj0 : j = 0 := by omega
      subst hj0
      rw [if_pos hj, predT_zero]
    · rw [if_neg (by omega)]
  · have hcount : sizeSub1 (nRow * nCol) - 1 = nRow * nCol - 2 := by
      rw [sizeSub1_eq (by omega) hsz]
      omega
    rw [transpose, hcount]
    have hinv0 : ∀ j, j < nRow * nCol →
        t j = if minOrb nRow nCol j < 1 then t (predT nRow nCol j)
          else t j := by
      intro j hj
      by_cases h : minOrb nRow nCol j < 1
      · have hm0 : minOrb nRow nCol j = 0 := by omega
        have h0o : (0 : ℕ) ∈ orbit nRow nCol j := minOrb_eq_imp_mem hj hm0
        have horb0 : orbit nRow nCol 0 = orbit nRow nCol j :=
          orbit_eq_of_mem hj h0o
        have h0fix : orbit nRow nCol 0 = {0} :=
          orbit_fixed (by omega) (predT_zero _ _)
        have hj0 : j = 0 := by
          have hmm : j ∈ orbit nRow nCol j := mem_orbit_self hj
          rw [← horb0, h0fix, Finset.mem_singleton] at hmm
          exact hmm
        subst hj0
        rw [if_pos h, predT_zero]
      · rw [if_neg h]
    obtain ⟨u, hloop, hu, huo⟩ := outerLoop_inv t (nRow * nCol - 2) 1 t
      le_rfl (by omega) hinv0 (fun j hj => rfl)
    rw [hloop]
    refine congrArg some (funext fun j => ?_)
    rcases Nat.lt_or_ge j (nRow * nCol) with hj | hj
    · rw [if_pos hj, hu j hj]
      by_cases hlt : minOrb nRow nCol j < 1 + (nRow * nCol - 2)
      · rw [if_pos hlt]
      · have hmle := minOrb_le_self nRow nCol j
        have hmeq : minOrb nRow nCol j = nRow * nCol - 1 := by omega
        have hmem : nRow * nCol - 1 ∈ orbit nRow nCol j :=
          minOrb_eq_imp_mem hj hmeq
        have horb1 : orbit nRow nCol (nRow * nCol - 1) = orbit nRow nCol j :=
          orbit_eq_of_mem hj hmem
        have hfix1 : orbit nRow nCol (nRow * nCol - 1) = {nRow * nCol - 1} :=
          orbit_fixed (by omega) (predT_last hR hC)
        have hj1 : j = nRow * nCol - 1 := by
          have hmm : j ∈ orbit nRow nCol j := mem_orbit_self hj
          rw [← horb1, hfix1, Finset.mem_singleton] at hmm
          exact hmm
        subst hj1
        rw [if_neg hlt, predT_last hR hC]
    · rw [if_neg (by omega), huo j hj]

theorem outerLoop_skip {α : Type} {nRow nCol : ℕ} (hC : nCol ≠ 0)
    (hp : ∀ i, 1 ≤ i → predT nRow nCol i ≤ i) (t : ℕ → α) :
    ∀ fuel i, 1 ≤ i → outerLoop nRow nCol fuel i t = some t := by
  intro fuel
  induction fuel with
  | zero => intro i _; rfl
  | succ f ih =>
    intro i h1
    simp only [outerLoop]
    have hstep : transposeStep nRow nCol t i = some t := by
      unfold transposeStep
      rw [pred_eq_some hC, Option.some_bind, if_pos (hp i h1)]
    rw [hstep, Option.some_bind]
    exact ih (i + 1) (by omega)

theorem outerLoop_succ {α : Type} (nRow nCol fuel i : ℕ) (t : ℕ → α) :
    outerLoop nRow nCol (fuel + 1) i t
      = (transposeStep nRow nCol t i).bind (outerLoop nRow nCol fuel (i + 1)) :=
  rfl

theorem transpose_zero_col {α : Type} (t : ℕ → α) (nRow : ℕ) :
    transpose t nRow 0 = none := by
  have hcount : sizeSub1 (nRow * 0) - 1 = (2 ^ 64 - 3) + 1 := by
    rw [Nat.mul_zero, sizeSub1_zero]
    norm_num
  rw [transpose, hcount, outerLoop_succ]
  have hstep : transposeStep nRow 0 t 1 = (none : Option (ℕ → α)) := by
    simp [transposeStep, pred]
  rw [hstep]
  rfl

theorem getDouble_found (j : JSONFile) (varName : String)
    (r : Option JsonNode) (token : String)
    (hfv : findValue j.root varName = (r, some token)) :
    ED_getDoubleFromJSON (some j) varName =
      (match ED_strtod token with
       | some v => .ok v true
       | none => .fatal ("Cannot read double value \"" ++ token ++ "\"")) := by
  simp only [ED_getDoubleFromJSON]
  rw [hfv]
  rcases r with _ | node <;> rfl

theorem getInt_found (j : JSONFile) (varName : String)
    (r : Option JsonNode) (token : String)
    (hfv : findValue j.root varName = (r, some token)) :
    ED_getIntFromJSON (some j) varName =
      (match ED_strtol token with
       | some v => .ok (intCast32 v) true
       | none => .fatal ("Cannot read int value \"" ++ token ++ "\"")) := by
  simp only [ED_getIntFromJSON]
  rw [hfv]
  rcases r with _ | node <;> rfl

/-- C1: for every nRow ≥ 1, nCol ≥ 1 (with nRow*nCol a representable
`size_t` buffer size) and every buffer, applying `transpose(buffer, nRow,
nCol)` and then `transpose(buffer, nCol, nRow)` with swapped dimensions
returns the buffer to its original contents. -/
theorem transpose_roundtrip {α : Type} (nRow nCol : ℕ) (hR : 1 ≤ nRow)
    (hC : 1 ≤ nCol) (hsz : nRow * nCol < 2 ^ 64) (t : ℕ → α) :
    (transpose t nRow nCol).bind (fun u => transpose u nCol nRow) = some t := by
  rw [transpose_spec t nRow nCol hR hC hsz, Option.some_bind]
  have hsz2 : nCol * nRow < 2 ^ 64 := by
    rw [Nat.mul_comm]
    exact hsz
  rw [transpose_spec _ nCol nRow hC hR hsz2]
  refine congrArg some (funext fun j => ?_)
  by_cases hj : j < nCol * nRow
  · rw [if_pos hj]
    have hpj : predT nCol nRow j < nCol * nRow := predT_lt hj
    show (if predT nCol nRow j < nRow * nCol then
        t (predT nRow nCol (predT nCol nRow j)) else t (predT nCol nRow j))
      = t j
    rw [if_pos (by rw [Nat.mul_comm nRow nCol]; exact hpj), predT_predT hj]
  · rw [if_neg hj]
    show (if j < nRow * nCol then t (predT nRow nCol j) else t j) = t j
    rw [if_neg (by rw [Nat.mul_comm nRow nCol]; exact hj)]

/-- Witness for C1: round trip at nRow = 2, nCol = 3 on a concrete
buffer. -/
theorem transpose_roundtrip_witness :
    (transpose (fun j => ([1, 2, 3, 4, 5, 6] : List ℚ).getD j 0) 2 3).bind
        (fun u => transpose u 3 2)
      = some (fun j => ([1, 2, 3, 4, 5, 6] : List ℚ).getD j 0) :=
  transpose_roundtrip 2 3 (by decide) (by decide) (by decide) _

/-- C2: transposing the 2×3 row-major buffer `[1,2,3,4,5,6]` with the
dimension arguments the adapters use for this shape — the write adapter
calls `transpose(aT, n, m) = transpose(buf, 3, 2)` for an m = 2 by n = 3
matrix — rewrites the buffer into `[1,4,2,5,3,6]`. -/
theorem transpose_2x3 :
    (transpose (fun j => ([1, 2, 3, 4, 5, 6] : List ℚ).getD j 0) 3 2).map
        (fun u => (List.range 6).map u)
      = some [1, 4, 2, 5, 3, 6] := by
  decide

/-- C3 counterexample: at nRow = 2, nCol = 0 we have nRow*nCol = 0 ≤ 1, yet
`transpose` is not a no-op: the loop bound `nRow*nCol - 1` underflows to
`2^64 - 1` and the first iteration evaluates `i % nCol` with `nCol = 0`,
dividing by zero (undefined behaviour, modelled `none`), so the buffer is
not simply left unchanged. -/
theorem transpose_degenerate_cex :
    transpose (fun _ => (0 : ℚ)) 2 0 ≠ some (fun _ => (0 : ℚ)) := by
  rw [transpose_zero_col]
  exact fun h => Option.noConfusion h

/-- C3 (amended): whenever nCol ≥ 1 and (nRow ≤ 1 or nCol = 1) — which
covers nRow = 1 or nCol = 1 with positive dimensions, and every
nRow*nCol ≤ 1 case except nCol = 0 — `transpose(buffer, nRow, nCol)` is a
no-op leaving every element unchanged; when nCol = 0 the body divides by
zero (undefined behaviour), so no such guarantee exists there. -/
theorem transpose_degenerate {α : Type} (nRow nCol : ℕ) (hC : 1 ≤ nCol)
    (h : nRow ≤ 1 ∨ nCol = 1) (t : ℕ → α) :
    transpose t nRow nCol = some t := by
  have hC0 : nCol ≠ 0 := by omega
  have hp : ∀ i, 1 ≤ i → predT nRow nCol i ≤ i := by
    intro i h1
    rcases h with h | h
    · rcases Nat.eq_zero_or_pos nRow with h0 | h0
      · subst h0
        simp [predT, Nat.div_le_self]
      · have h0 : nRow = 1 := by omega
        subst h0
        show 1 * (i % nCol) + i / nCol ≤ i
        have h2 := Nat.div_add_mod i nCol
        have h3 : i / nCol ≤ nCol * (i / nCol) :=
          Nat.le_mul_of_pos_left _ (by omega)
        omega
    · subst h
      show nRow * (i % 1) + i / 1 ≤ i
      rw [Nat.mod_one, Nat.div_one, Nat.mul_zero, Nat.zero_add]
  exact outerLoop_skip hC0 hp t _ 1 le_rfl

/-- Witness for C3 (amended): nRow = 5, nCol = 1 leaves a concrete buffer
unchanged. -/
theorem transpose_degenerate_witness :
    transpose (fun j => ([1, 2, 3, 4, 5] : List ℚ).getD j 0) 5 1
      = some (fun j => ([1, 2, 3, 4, 5] : List ℚ).getD j 0) :=
  transpose_degenerate 5 1 (by decide) (Or.inr rfl) _

/-- C9: for nRow ≥ 1, nCol ≥ 1 the index map `x ↦ nRow*(x % nCol) + x/nCol`
is a permutation of `{0, ..., nRow*nCol - 1}`; every outer-loop index
returns to itself after at most nRow*nCol predecessor steps (so the cycle
rotation terminates), and the cycle-visited scan exits with a value ≤ i
within the fuel nRow*nCol (so the scan loop terminates). -/
theorem transpose_termination (nRow nCol i : ℕ) (hR : 1 ≤ nRow)
    (hC : 1 ≤ nCol) (h1 : 1 ≤ i) (hi : i < nRow * nCol) :
    Set.BijOn (predT nRow nCol) (Set.Iio (nRow * nCol))
        (Set.Iio (nRow * nCol))
    ∧ (∃ c, 1 ≤ c ∧ c ≤ nRow * nCol ∧ (predT nRow nCol)^[c] i = i)
    ∧ (∃ x, cycleScan nRow nCol i (nRow * nCol) (predT nRow nCol i) = some x
        ∧ x ≤ i) := by
  refine ⟨⟨?_, ?_, ?_⟩, exists_period hi, ?_⟩
  · intro x hx
    rw [Set.mem_Iio] at hx ⊢
    exact predT_lt hx
  · intro x hx y hy hxy
    rw [Set.mem_Iio] at hx hy
    exact predT_inj hx hy hxy
  · intro y hy
    rw [Set.mem_Iio] at hy
    have hy2 : y < nCol * nRow := by
      rw [Nat.mul_comm]
      exact hy
    refine ⟨predT nCol nRow y, ?_, predT_predT hy2⟩
    rw [Set.mem_Iio, Nat.mul_comm nRow nCol]
    exact predT_lt hy2
  · obtain ⟨x, hscan, hxle, _, _, _⟩ := cycleScan_spec h1 hi
    exact ⟨x, hscan, hxle⟩

/-- Witness for C9 at nRow = 2, nCol = 3, i = 1. -/
theorem transpose_termination_witness :
    Set.BijOn (predT 2 3) (Set.Iio (2 * 3)) (Set.Iio (2 * 3))
    ∧ (∃ c, 1 ≤ c ∧ c ≤ 2 * 3 ∧ (predT 2 3)^[c] 1 = 1)
    ∧ (∃ x, cycleScan 2 3 1 (2 * 3) (predT 2 3 1) = some x ∧ x ≤ 1) :=
  transpose_termination 2 3 1 (by decide) (by decide) (by decide) (by decide)

/-- C4: on a document equivalent to `{"a":{"b":{"c":42}}}`, the numeric
scalar read of the dotted path `"a.b.c"` succeeds: it returns 42 with the
exist flag true and no error. -/
theorem json_lookup_found :
    ED_getDoubleFromJSON (some ⟨doc1⟩) "a.b.c" = .ok 42 true := by
  decide

/-- C5: for every dotted path whose lookup fails to produce a token (the
path is absent from the document), the scalar getters raise no fatal
error, set the exist flag to false, and return the default value: 0 for
the numeric getters and the empty string for the string getter. -/
theorem json_lookup_missing (j : JSONFile) (varName : String)
    (r : Option JsonNode) (h : findValue j.root varName = (r, none)) :
    ED_getDoubleFromJSON (some j) varName = .ok 0 false
    ∧ ED_getStringFromJSON (some j) varName = .ok "" false
    ∧ ED_getIntFromJSON (some j) varName = .ok 0 false := by
  refine ⟨?_, ?_, ?_⟩
  · simp only [ED_getDoubleFromJSON]
    rw [h]
    rcases r with _ | node <;> rfl
  · simp only [ED_getStringFromJSON]
    rw [h]
    rcases r with _ | node <;> rfl
  · simp only [ED_getIntFromJSON]
    rw [h]
    rcases r with _ | node <;> rfl

/-- Witness for C5: the path `"a.x.c"` is absent from
`{"a":{"b":{"c":42}}}`. -/
theorem json_lookup_missing_witness :
    ED_getDoubleFromJSON (some ⟨doc1⟩) "a.x.c" = .ok 0 false
    ∧ ED_getStringFromJSON (some ⟨doc1⟩) "a.x.c" = .ok "" false
    ∧ ED_getIntFromJSON (some ⟨doc1⟩) "a.x.c" = .ok 0 false :=
  json_lookup_missing ⟨doc1⟩ "a.x.c" none (by rfl)

/-- C6: for every path whose lookup finds a textual token that is not
syntactically a number, the numeric getters (double and int) raise a fatal
error rather than returning with the exist flag false. -/
theorem json_nonnumeric_fatal (j : JSONFile) (varName : String)
    (r : Option JsonNode) (token : String)
    (hfv : findValue j.root varName = (r, some token))
    (hd : ED_strtod token = none) (hl : ED_strtol token = none) :
    (∃ msg, ED_getDoubleFromJSON (some j) varName = .fatal msg)
    ∧ ∃ msg2, ED_getIntFromJSON (some j) varName = .fatal msg2 := by
  constructor
  · refine ⟨"Cannot read double value \"" ++ token ++ "\"", ?_⟩
    rw [getDouble_found j varName r token hfv, hd]
  · refine ⟨"Cannot read int value \"" ++ token ++ "\"", ?_⟩
    rw [getInt_found j varName r token hfv, hl]

/-- Witness for C6: a numeric read of `"a"` on `{"a":"hello"}`. -/
theorem json_nonnumeric_fatal_witness :
    (∃ msg, ED_getDoubleFromJSON (some ⟨doc2⟩) "a" = .fatal msg)
    ∧ ∃ msg2, ED_getIntFromJSON (some ⟨doc2⟩) "a" = .fatal msg2 :=
  json_nonnumeric_fatal ⟨doc2⟩ "a" (some doc2) "hello" (by rfl) (by rfl)
    (by rfl)

/-- C7: every invocation of the dotted-path lookup that fails to return a
value leaves the caller's container reference cleared to `NULL`: if the
token component of `findValue` is `none`, so is the root component. -/
theorem findValue_failure_clears_root (root : JsonNode) (varName : String)
    (h : (findValue root varName).2 = none) :
    (findValue root varName).1 = none := by
  unfold findValue at h ⊢
  rcases hfl : findLoop root (tokenize varName) with ⟨reached, key, rest⟩
  rcases key with _ | k
  · simp [hfl]
  · by_cases hrest : rest.isEmpty
    · rcases hpv : JsonNode_getPairValue reached k with _ | v
      · simp [hfl, hrest, hpv]
      · rw [hfl] at h
        simp [hrest, hpv] at h
    · simp [hfl, hrest]

/-- Witness for C7: the failing lookup `"a.x.c"` on
`{"a":{"b":{"c":42}}}` leaves the root reference cleared. -/
theorem findValue_failure_clears_root_witness :
    (findValue doc1 "a.x.c").1 = none :=
  findValue_failure_clears_root doc1 "a.x.c" (by rfl)

/-- C8: whenever the stored variable passes the rank/class/complexity
checks but the caller-supplied dimensions (m, n) differ from the stored
dimensions in either component, the 2D read fails fatally and the caller's
buffer is returned entirely unchanged. -/
theorem matread_dim_mismatch (h : MATHandle) (f : MatFile) (v : MatVar)
    (varName : String) (a : ℕ → ℚ) (m n : ℕ) (hopen : h.opened = some f)
    (hvar : f.vars varName = some v) (hrank : v.rank = 2)
    (hclass : v.classType = MAT_C_DOUBLE) (hcx : v.isComplex = false)
    (hmm : m ≠ v.dims0 ∨ n ≠ v.dims1) :
    ∃ msg, ED_getDoubleArray2DFromMAT (some h) varName a m n
      = .fatal msg a := by
  by_cases hm : m = v.dims0
  · have hn : n ≠ v.dims1 := hmm.resolve_left (not_not_intro hm)
    refine ⟨"Cannot read columns of matrix", ?_⟩
    simp only [ED_getDoubleArray2DFromMAT, hopen, hvar, hrank, hclass, hcx]
    rw [if_neg (by omega), if_neg (by omega), if_neg (by simp),
      if_neg (by omega), if_pos hn]
  · refine ⟨"Cannot read rows of matrix", ?_⟩
    simp only [ED_getDoubleArray2DFromMAT, hopen, hvar, hrank, hclass, hcx]
    rw [if_neg (by omega), if_neg (by omega), if_neg (by simp), if_pos hm]

/-- Witness for C8: reading the stored 2×3 variable `A` with caller
dimensions 1×3. -/
theorem matread_dim_mismatch_witness :
    ∃ msg, ED_getDoubleArray2DFromMAT (some sampleHandle) "A"
        (fun _ => (0 : ℚ)) 1 3 = .fatal msg (fun _ => (0 : ℚ)) :=
  matread_dim_mismatch sampleHandle sampleFile sampleVar "A"
    (fun _ => (0 : ℚ)) 1 3 rfl (by rfl) rfl rfl rfl (Or.inl (by decide))

theorem write_some_eq {α : Type} (h : MATHandle) (openOk writeOk : Bool)
    (varName : String) (a : ℕ → α) (m n : ℕ) (append : ℕ) :
    ED_writeDoubleArray2DToMAT (some h) openOk writeOk varName a m n append
      = (if openOk = false then
          WriteOutcome.fatal "Not possible to open file" a
         else
          match transpose (fun j => a j) n m with
          | none => WriteOutcome.ub
          | some aT2 =>
            if writeOk = false then
              WriteOutcome.fatal "Cannot write variable" a
            else WriteOutcome.ret 1 a (some (varName, (m, n), aT2))) :=
  rfl

theorem write_ub {α : Type} (h : MATHandle) (writeOk : Bool)
    (varName : String) (a : ℕ → α) (m n : ℕ) (append : ℕ)
    (htr : transpose (fun j => a j) n m = none) :
    ED_writeDoubleArray2DToMAT (some h) true writeOk varName a m n append
      = WriteOutcome.ub := by
  rw [write_some_eq, if_neg (by decide : ¬(true = false)), htr]

/-- C10 counterexample: at caller dimensions m = 0, n = 3 the write adapter
calls `transpose(aT, 3, 0)`, which divides by zero (undefined behaviour,
modelled `ub`), so the claim that every exit path leaves the caller's
array unchanged does not hold for every choice of dimensions. -/
theorem write_preserves_cex :
    (ED_writeDoubleArray2DToMAT (some sampleHandle) true true "A"
        (fun _ => (0 : ℚ)) 0 3 0).callerBuf ≠ some (fun _ => (0 : ℚ)) := by
  rw [write_ub sampleHandle true "A" (fun _ => (0 : ℚ)) 0 3 0
    (transpose_zero_col _ 3)]
  exact fun hc => Option.noConfusion hc

/-- C10 (amended): for every handle, name, append flag and dimensions with
m ≥ 1 (and a representable buffer size), the matrix write never modifies
the caller's input array: the data is copied into a fresh buffer, only the
copy is transposed, and on every exit path the caller's array is returned
unchanged. -/
theorem write_preserves_caller {α : Type} (mat : Option MATHandle)
    (openOk writeOk : Bool) (varName : String) (a : ℕ → α) (m n : ℕ)
    (append : ℕ) (hm : 1 ≤ m) (hsz : n * m < 2 ^ 64) :
    (ED_writeDoubleArray2DToMAT mat openOk writeOk varName a m n
        append).callerBuf = some a := by
  rcases mat with _ | h
  · rfl
  · rcases openOk with _ | _
    · rfl
    · rw [write_some_eq, if_neg (by decide : ¬(true = false))]
      have htr : ∃ u, transpose (fun j => a j) n m = some u := by
        rcases Nat.eq_zero_or_pos n with h0 | h0
        · subst h0
          exact ⟨_, transpose_degenerate 0 m hm (Or.inl (by omega)) _⟩
        · exact ⟨_, transpose_spec _ n m h0 hm hsz⟩
      obtain ⟨u, hu⟩ := htr
      rw [hu]
      rcases writeOk with _ | _ <;> rfl

/-- Witness for C10 (amended): a concrete successful 2×3 write returns the
caller's buffer unchanged. -/
theorem write_preserves_caller_witness :
    (ED_writeDoubleArray2DToMAT (some sampleHandle) true true "A"
        (fun _ => (0 : ℚ)) 2 3 0).callerBuf = some (fun _ => (0 : ℚ)) :=
  write_preserves_caller (some sampleHandle) true true "A" _ 2 3 0
    (by decide) (by decide)

end ExternData
